import Mathlib

/-!
Verification of the boxtransport repository (rot256/boxtransport).

The Go sources are shallowly embedded: byte slices become `List Nat`
(entries are byte values; the Go `byte` type guarantees values < 256 on
the wire), fallible functions return `Except String` (the `String` is the
text of the `errors.New` value in the source) or `Option`, and a Go
runtime panic is modelled as `Option.none`.  The background goroutines
(`boxWriter`, `boxReader`, `streamWriter`) are embedded as pure functions
or as step functions driven by an explicit schedule that resolves the
channel nondeterminism.

The external primitive `golang.org/x/crypto/nacl/box` is out of scope for
the repository (spec section 1) and is modelled: the model keeps the
declared interface exactly (24-byte nonce, fixed 16-byte overhead
prepended to the ciphertext, `Open` succeeding only when the
authenticator matches) while the cipher itself is a simple executable
stand-in (xor keystream plus a checksum tag).
-/

/-! ## Constants (src/box.go, const block) -/

def LenFieldSize : Nat := 2

def NonceSize : Nat := 24

/-- `box.Overhead` of golang.org/x/crypto/nacl/box: 16 bytes. -/
def BoxOverhead : Nat := 16

/-- Maximum raw data in a frame (content field: nonce + box). -/
def MaxRawData : Nat := 2 ^ 16 - 1

/-- Maximum plaintext in a sealed frame. -/
def MaxContent : Nat := MaxRawData - BoxOverhead - NonceSize

/-! ## Error strings used by the source (`errors.New` literals) -/

def errFrameTooLarge : String := ("Frame too large!")

def errInvalidBox : String := ("Recieved invalid box")

def errInvalidKey : String := ("Recieved invalid public key")

def errKeyMismatch : String := ("Expected diffrent public key")

def errEOF : String := ("EOF")

/-! ## Modelled NaCl box primitive -/

/-- Modelled from the spec: keystream of the external AEAD cipher
(out-of-scope primitive, spec section 1).  Any fixed executable stream
works for the model; decryption is the same xor. -/
def keystream (key nonce : List Nat) (len : Nat) : List Nat :=
  (List.range len).map (fun i => (key.sum * 31 + nonce.sum * 7 + i) % 256)

/-- Modelled from the spec: the 16-byte authenticator the external AEAD
attaches to each ciphertext. -/
def boxTag (key nonce ct : List Nat) : List Nat :=
  List.replicate BoxOverhead ((key.sum + nonce.sum + ct.sum + 1) % 256)

/-- Modelled from the spec: `box.SealAfterPrecomputation` with `out = []`;
returns authenticator ++ ciphertext, adding exactly `BoxOverhead` bytes. -/
def boxSealAfterPrecomputation (key nonce msg : List Nat) : List Nat :=
  let ct := List.zipWith Nat.xor msg (keystream key nonce msg.length)
  boxTag key nonce ct ++ ct

/-- Modelled from the spec: `box.OpenAfterPrecomputation`; verifies the
authenticator and decrypts, returning `none` when verification fails. -/
def boxOpenAfterPrecomputation (key nonce b : List Nat) : Option (List Nat) :=
  if b.length < BoxOverhead then none
  else
    let tag := b.take BoxOverhead
    let ct := b.drop BoxOverhead
    if tag = boxTag key nonce ct then
      some (List.zipWith Nat.xor ct (keystream key nonce ct.length))
    else none

/-! ## seal / unseal (src/routines.go) -/

/-- `seal` (src/routines.go): returns nonce ++ box.  The random nonce is a
parameter of the embedding (the success path of `rand.Read`; a randomness
failure makes `seal` return an error before producing any frame). -/
def sealData (key nonce b : List Nat) : List Nat :=
  nonce ++ boxSealAfterPrecomputation key nonce b

/-- `unseal` (src/routines.go).  The Go slice expressions `b[:NonceSize]`
and `b[NonceSize:]` panic when `len(b) < NonceSize` (the slice has
capacity equal to its length, since `boxReader` allocates it with
`make([]byte, n)`); `none` models that panic. -/
def unsealData (key b : List Nat) : Option (Except String (List Nat)) :=
  if b.length < NonceSize then none
  else
    match boxOpenAfterPrecomputation key (b.take NonceSize) (b.drop NonceSize) with
    | none => some (Except.error errInvalidBox)
    | some plain => some (Except.ok plain)

/-! ## Frame codec (src/routines.go, boxWriter / boxReader) -/

/-- `binary.BigEndian.PutUint16(tmp, uint16(size))`: the `uint16`
conversion truncates modulo 2^16, then the two big-endian bytes. -/
def putUint16BE (v : Nat) : List Nat :=
  [v % 2 ^ 16 / 2 ^ 8, v % 2 ^ 16 % 2 ^ 8]

/-- The bytes `boxWriter` puts on the wire for one outbox payload:
2-byte big-endian length field followed by the payload. -/
def encodeFrame (msg : List Nat) : List Nat :=
  putUint16BE msg.length ++ msg

/-- The frame-extraction loop of `boxReader`: while at least
`LenFieldSize` bytes are buffered and the full frame is present, emit the
content (any 16-bit length, no minimum-length check) and continue on the
rest.  Returns (emitted contents in order, leftover buffered bytes).
The fuel argument only makes the recursion structural; `fuel = length of
the buffer` always suffices because each step consumes at least two
bytes. -/
def decodeLoop : Nat → List Nat → List (List Nat) × List Nat
  | 0, buff => ([], buff)
  | fuel + 1, buff =>
    match buff with
    | b0 :: b1 :: rest =>
      let contentLen := b0 * 2 ^ 8 + b1
      if contentLen ≤ rest.length then
        let out := decodeLoop fuel (rest.drop contentLen)
        (rest.take contentLen :: out.1, out.2)
      else ([], buff)
    | _ => ([], buff)

def decodeFrames (buff : List Nat) : List (List Nat) × List Nat :=
  decodeLoop buff.length buff

/-! ## Frame interface (src/box.go, WriteFrame / ReadFrame) -/

/-- `WriteFrame` (src/box.go): rejects oversized plaintext before any
sealing, otherwise seals and hands the payload to the Frame Writer
(`outBox`); `Except.ok p` is the payload handed off, `Except.error`
means nothing was sealed or handed off. -/
def writeFrame (key nonce frame : List Nat) : Except String (List Nat) :=
  if frame.length > MaxContent then Except.error errFrameTooLarge
  else Except.ok (sealData key nonce frame)

/-- `ReadFrame` (src/box.go): receives either an error from the error
channel or a raw content from the Frame Reader (`inBox`), and unseals the
latter. -/
def readFrame (key : List Nat) (inbox : Except String (List Nat)) :
    Option (Except String (List Nat)) :=
  match inbox with
  | Except.error e => some (Except.error e)
  | Except.ok msg => unsealData key msg

/-! ## Basic length lemmas -/

theorem keystream_length (key nonce : List Nat) (len : Nat) :
    (keystream key nonce len).length = len := by
  simp [keystream]

theorem boxSeal_length (key nonce msg : List Nat) :
    (boxSealAfterPrecomputation key nonce msg).length = BoxOverhead + msg.length := by
  simp [boxSealAfterPrecomputation, boxTag, keystream]

theorem seal_length (key nonce b : List Nat) :
    (sealData key nonce b).length = nonce.length + (BoxOverhead + b.length) := by
  simp [sealData, boxSeal_length]

theorem encodeFrame_length (msg : List Nat) :
    (encodeFrame msg).length = msg.length + 2 := by
  simp [encodeFrame, putUint16BE]

/-! ## Round-trip lemmas for the modelled primitive -/

theorem zipWith_xor_cancel (m ks : List Nat) (h : m.length ≤ ks.length) :
    List.zipWith Nat.xor (List.zipWith Nat.xor m ks) ks = m := by
  induction m generalizing ks with
  | nil => simp
  | cons a m ih =>
    cases ks with
    | nil => simp at h
    | cons k ks =>
      have hx : Nat.xor (Nat.xor a k) k = a := Nat.xor_cancel_right k a
      simp only [List.zipWith_cons_cons]
      rw [hx, ih ks (by simpa using h)]

theorem boxOpen_boxSeal (key nonce msg : List Nat) :
    boxOpenAfterPrecomputation key nonce (boxSealAfterPrecomputation key nonce msg)
      = some msg := by
  have hks := keystream_length key nonce msg.length
  have hct : (List.zipWith Nat.xor msg (keystream key nonce msg.length)).length
      = msg.length := by
    simp [hks]
  have htag : (boxTag key nonce (List.zipWith Nat.xor msg (keystream key nonce msg.length))).length
      = BoxOverhead := by
    simp [boxTag]
  simp only [boxSealAfterPrecomputation, boxOpenAfterPrecomputation]
  rw [if_neg (by simp [htag]), ← htag, List.take_left, List.drop_left,
    if_pos rfl, hct, zipWith_xor_cancel msg _ (le_of_eq hks.symm)]

theorem unseal_seal (key nonce b : List Nat) (hn : nonce.length = NonceSize) :
    unsealData key (sealData key nonce b) = some (Except.ok b) := by
  have hlen : (sealData key nonce b).length = NonceSize + (BoxOverhead + b.length) := by
    rw [seal_length, hn]
  unfold unsealData
  rw [if_neg (by rw [hlen]; omega)]
  unfold sealData
  rw [← hn, List.take_left, List.drop_left, boxOpen_boxSeal]

/-! ## Codec round trip -/

theorem decodeLoop_nil (fuel : Nat) : decodeLoop fuel [] = ([], []) := by
  cases fuel <;> rfl

theorem decode_encode (msg : List Nat) (h : msg.length ≤ MaxRawData) :
    decodeFrames (encodeFrame msg) = ([msg], []) := by
  have hraw : MaxRawData = 2 ^ 16 - 1 := rfl
  have hmod : msg.length % 2 ^ 16 = msg.length := Nat.mod_eq_of_lt (by omega)
  have henc : encodeFrame msg = msg.length / 2 ^ 8 :: msg.length % 2 ^ 8 :: msg := by
    simp only [encodeFrame, putUint16BE, List.cons_append, List.nil_append, List.cons.injEq,
      and_true, true_and]
    omega
  have hlen : (encodeFrame msg).length = msg.length + 1 + 1 := by
    simp [encodeFrame, putUint16BE]
  have hc : msg.length / 2 ^ 8 * 2 ^ 8 + msg.length % 2 ^ 8 = msg.length := by omega
  unfold decodeFrames
  rw [hlen, henc]
  unfold decodeLoop
  simp only [hc, le_refl, if_pos, List.take_length, List.drop_length, decodeLoop_nil]

/-! ## Claim theorems: frame interface -/

/-- C1: for every byte sequence `b` with `len(b) <= MaxContent`,
`WriteFrame(b)` seals `b` into the nonce-prefixed payload handed to the
Frame Writer; the peer's Frame Reader recovers exactly that content from
the wire bytes, and `ReadFrame()` unseals it back to `b` unchanged. -/
theorem writeFrame_readFrame_roundTrip (key nonce b : List Nat)
    (hn : nonce.length = NonceSize) (hb : b.length ≤ MaxContent) :
    writeFrame key nonce b = Except.ok (sealData key nonce b) ∧
    decodeFrames (encodeFrame (sealData key nonce b)) = ([sealData key nonce b], []) ∧
    readFrame key (Except.ok (sealData key nonce b)) = some (Except.ok b) := by
  have hmc : MaxContent = 65495 := by norm_num [MaxContent, MaxRawData, BoxOverhead, NonceSize]
  have hmr : MaxRawData = 65535 := by norm_num [MaxRawData]
  refine ⟨?_, ?_, ?_⟩
  · unfold writeFrame
    rw [if_neg (by omega)]
  · refine decode_encode _ ?_
    rw [seal_length, hn]
    norm_num [NonceSize, BoxOverhead]
    omega
  · unfold readFrame
    exact unseal_seal key nonce b hn

theorem writeFrame_readFrame_roundTrip_witness :
    (List.replicate NonceSize 5).length = NonceSize ∧
    ([9, 8, 7] : List Nat).length ≤ MaxContent ∧
    readFrame [1, 2] (Except.ok (sealData [1, 2] (List.replicate NonceSize 5) [9, 8, 7]))
      = some (Except.ok [9, 8, 7]) :=
  ⟨by simp, by decide,
   (writeFrame_readFrame_roundTrip [1, 2] (List.replicate NonceSize 5) [9, 8, 7]
     (by simp) (by decide)).2.2⟩

/-- C3 counterexample: the claimed bound fails on the code.  `MaxContent`
is `65535 - AEAD-overhead - 24` (no `- 2` term), and the frame produced
for a `MaxContent`-byte plaintext totals `65537` wire bytes, which
exceeds `65535`. -/
theorem frame_size_claim_false :
    MaxContent ≠ 65535 - 2 - BoxOverhead - NonceSize ∧
    65535 <
      (encodeFrame (sealData [] (List.replicate NonceSize 0)
        (List.replicate MaxContent 0))).length := by
  constructor
  · decide
  · have hs : (sealData [] (List.replicate NonceSize 0) (List.replicate MaxContent 0)).length
        = NonceSize + (BoxOverhead + MaxContent) := by
      simp [seal_length]
    have he : (encodeFrame (sealData [] (List.replicate NonceSize 0)
        (List.replicate MaxContent 0))).length
        = NonceSize + (BoxOverhead + MaxContent) + 2 := by
      rw [encodeFrame_length, hs]
    rw [he]
    norm_num [NonceSize, BoxOverhead, MaxContent, MaxRawData]

/-- C3 (amended): every sealed frame's content is at most
`MaxRawData = 65535` bytes, so the whole wire frame (2-byte length field
plus content) is at most `65537 = 65535 + 2` bytes, with equality reached
at a `MaxContent`-byte plaintext; the maximum plaintext in one sealed
frame is `MaxContent = 65535 - AEAD-overhead - 24 = 65495` (the length
field is not subtracted). -/
theorem frame_size_bounds (key nonce b : List Nat)
    (hn : nonce.length = NonceSize) (hb : b.length ≤ MaxContent) :
    (sealData key nonce b).length ≤ MaxRawData ∧
    (encodeFrame (sealData key nonce b)).length ≤ MaxRawData + LenFieldSize ∧
    (b.length = MaxContent →
      (encodeFrame (sealData key nonce b)).length = MaxRawData + LenFieldSize) ∧
    MaxContent = 65495 := by
  have hmc : MaxContent = 65495 := by norm_num [MaxContent, MaxRawData, BoxOverhead, NonceSize]
  have hmr : MaxRawData = 65535 := by norm_num [MaxRawData]
  have hlf : LenFieldSize = 2 := rfl
  have hs : (sealData key nonce b).length = NonceSize + (BoxOverhead + b.length) := by
    rw [seal_length, hn]
  have he : (encodeFrame (sealData key nonce b)).length
      = NonceSize + (BoxOverhead + b.length) + 2 := by
    rw [encodeFrame_length, hs]
  refine ⟨?_, ?_, ?_, hmc⟩
  · rw [hs]; norm_num [NonceSize, BoxOverhead]; omega
  · rw [he, hlf]; norm_num [NonceSize, BoxOverhead]; omega
  · intro hbe; rw [he, hbe, hlf]; norm_num [NonceSize, BoxOverhead]; omega

theorem frame_size_bounds_witness :
    (sealData [] (List.replicate NonceSize 0) [3]).length ≤ MaxRawData ∧
    (encodeFrame (sealData [] (List.replicate NonceSize 0) [3])).length
      ≤ MaxRawData + LenFieldSize :=
  ⟨(frame_size_bounds [] (List.replicate NonceSize 0) [3] (by simp) (by decide)).1,
   (frame_size_bounds [] (List.replicate NonceSize 0) [3] (by simp) (by decide)).2.1⟩

/-- C5: `WriteFrame` with a plaintext of exactly `MaxContent` bytes
succeeds and hands the sealed payload to the Frame Writer; with more
than `MaxContent` bytes it returns the frame-too-large error before
sealing (the result does not depend on the key or nonce, so nothing is
sealed or handed off and no state is touched). -/
theorem writeFrame_boundary (key nonce b : List Nat) :
    (b.length = MaxContent → writeFrame key nonce b = Except.ok (sealData key nonce b)) ∧
    (b.length = MaxContent + 1 → writeFrame key nonce b = Except.error errFrameTooLarge) ∧
    (∀ key2 nonce2 : List Nat, MaxContent < b.length →
      writeFrame key nonce b = writeFrame key2 nonce2 b) := by
  refine ⟨?_, ?_, ?_⟩
  · intro h; unfold writeFrame; rw [if_neg (by omega)]
  · intro h; unfold writeFrame; rw [if_pos (by omega)]
  · intro key2 nonce2 h; unfold writeFrame
    rw [if_pos (by omega), if_pos (by omega)]

theorem writeFrame_boundary_witness :
    writeFrame [] [] (List.replicate MaxContent 0)
        = Except.ok (sealData [] [] (List.replicate MaxContent 0)) ∧
    writeFrame [] [] (List.replicate (MaxContent + 1) 0)
        = Except.error errFrameTooLarge :=
  ⟨(writeFrame_boundary [] [] _).1 (by simp),
   (writeFrame_boundary [] [] _).2.1 (by simp)⟩

/-- C6: whenever AEAD verification fails on a received content (of at
least nonce length, so the nonce split is defined), `unseal` returns the
distinct authentication-failure error, `ReadFrame` propagates exactly
that error, and no plaintext is ever returned. -/
theorem unseal_auth_failure (key content : List Nat)
    (h24 : NonceSize ≤ content.length)
    (hfail : boxOpenAfterPrecomputation key (content.take NonceSize)
        (content.drop NonceSize) = none) :
    unsealData key content = some (Except.error errInvalidBox) ∧
    readFrame key (Except.ok content) = some (Except.error errInvalidBox) ∧
    ∀ pt : List Nat, readFrame key (Except.ok content) ≠ some (Except.ok pt) := by
  have h1 : unsealData key content = some (Except.error errInvalidBox) := by
    unfold unsealData
    rw [if_neg (by omega), hfail]
  refine ⟨h1, ?_, ?_⟩
  · unfold readFrame; exact h1
  · intro pt
    show unsealData key content ≠ some (Except.ok pt)
    rw [h1]
    simp

theorem unseal_auth_failure_witness :
    unsealData [] (List.replicate 40 0) = some (Except.error errInvalidBox) ∧
    readFrame [] (Except.ok (List.replicate 40 0))
      = some (Except.error errInvalidBox) :=
  ⟨(unseal_auth_failure [] (List.replicate 40 0) (by decide) (by decide)).1,
   (unseal_auth_failure [] (List.replicate 40 0) (by decide) (by decide)).2.1⟩

/-- C9: the Frame Reader delivers contents of any length the 16-bit
length field allows, including empty content (wire bytes `[0, 0]`), with
no minimum-length check; `unseal` panics (modelled as `none`) on every
content shorter than the 24-byte nonce, and is defined on every content
of at least 24 bytes — `len(content) >= 24` is an unstated precondition
of `unseal` and hence of `ReadFrame`. -/
theorem unseal_nonce_split_precondition (key : List Nat) :
    (decodeFrames [0, 0]).1 = [[]] ∧
    (∀ content : List Nat, content.length < NonceSize → unsealData key content = none) ∧
    (∀ content : List Nat, NonceSize ≤ content.length →
      (unsealData key content).isSome = true) := by
  refine ⟨by decide, ?_, ?_⟩
  · intro c h
    unfold unsealData
    rw [if_pos h]
  · intro c h
    unfold unsealData
    rw [if_neg (by omega)]
    cases boxOpenAfterPrecomputation key (c.take NonceSize) (c.drop NonceSize) <;> simp

theorem unseal_nonce_split_witness :
    unsealData [] [] = none ∧
    (unsealData [] (List.replicate 40 0)).isSome = true :=
  ⟨(unseal_nonce_split_precondition []).2.1 [] (by decide),
   (unseal_nonce_split_precondition []).2.2 (List.replicate 40 0) (by decide)⟩

/-! ## Handshake (src/box.go, NewBoxConn) -/

structure HandshakeOk where
  peer : List Nat
  secret : List Nat
deriving Repr, DecidableEq

/-- Modelled from the spec: `box.Precompute`, the external Curve25519 key
agreement (out-of-scope primitive, spec section 1); argument order as in
the source call site: (peer public key, local private key).  Any
executable function serves the model. -/
def precompute (peer priv : List Nat) : List Nat :=
  List.zipWith (fun a b => (a * 31 + b * 17 + 1) % 256) peer priv

/-- The receive-and-pin step of `NewBoxConn` (src/box.go): given the
local private key, the optional expected peer key, and the first received
frame `msg`, it rejects a frame whose length is not 32, adopts `msg` when
no expected key was supplied, rejects a mismatching key, and on success
derives the shared secret from (peer public key, local private key)
before the connection is returned. -/
def handshakeRecv (priv : List Nat) (expected : Option (List Nat)) (msg : List Nat) :
    Except String HandshakeOk :=
  if msg.length ≠ 32 then Except.error errInvalidKey
  else
    match expected with
    | none => Except.ok ⟨msg, precompute msg priv⟩
    | some k =>
      if msg = k then Except.ok ⟨k, precompute k priv⟩
      else Except.error errKeyMismatch

/-- C4: with an expected peer key supplied, a differing 32-byte first
frame fails the handshake; with no expected key, the received key is
adopted; a first frame that is not exactly 32 bytes fails; and every
successful handshake derives the shared secret from the local private
key and the peer public key before returning. -/
theorem handshake_key_pinning (priv : List Nat) :
    (∀ k msg : List Nat, msg.length = 32 → msg ≠ k →
      handshakeRecv priv (some k) msg = Except.error errKeyMismatch) ∧
    (∀ msg : List Nat, msg.length = 32 →
      handshakeRecv priv none msg = Except.ok ⟨msg, precompute msg priv⟩) ∧
    (∀ (expected : Option (List Nat)) (msg : List Nat), msg.length ≠ 32 →
      handshakeRecv priv expected msg = Except.error errInvalidKey) ∧
    (∀ (expected : Option (List Nat)) (msg : List Nat) (r : HandshakeOk),
      handshakeRecv priv expected msg = Except.ok r →
      r.secret = precompute r.peer priv) := by
  refine ⟨?_, ?_, ?_, ?_⟩
  · intro k msg h hne
    simp [handshakeRecv, h, hne]
  · intro msg h
    simp [handshakeRecv, h]
  · intro expected msg h
    simp [handshakeRecv, h]
  · intro expected msg r h
    unfold handshakeRecv at h
    split at h
    · exact Except.noConfusion h
    · cases expected with
      | none =>
        cases h
        rfl
      | some k =>
        have h2 : (if msg = k then Except.ok (⟨k, precompute k priv⟩ : HandshakeOk)
            else Except.error errKeyMismatch) = Except.ok r := h
        by_cases he : msg = k
        · rw [if_pos he] at h2
          cases h2
          rfl
        · rw [if_neg he] at h2
          exact Except.noConfusion h2

theorem handshake_key_pinning_witness :
    handshakeRecv [7] (some (List.replicate 32 1)) (List.replicate 32 2)
        = Except.error errKeyMismatch ∧
    handshakeRecv [7] none (List.replicate 32 2)
        = Except.ok ⟨List.replicate 32 2, precompute (List.replicate 32 2) [7]⟩ ∧
    handshakeRecv [7] none [1, 2, 3] = Except.error errInvalidKey :=
  ⟨(handshake_key_pinning [7]).1 (List.replicate 32 1) (List.replicate 32 2)
      (by decide) (by decide),
   (handshake_key_pinning [7]).2.1 (List.replicate 32 2) (by decide),
   (handshake_key_pinning [7]).2.2.1 none [1, 2, 3] (by decide)⟩

/-! ## Stream read (src/conn.go, Read) -/

/-- `bytes.Buffer.Read(p)`: copies `min(len(p), buffered)` bytes from the
front of the buffer; returns `io.EOF` when the buffer is empty and
`len(p) > 0`.  Result: (bytes copied, buffer afterwards, error). -/
def bufferRead (buf : List Nat) (plen : Nat) : List Nat × List Nat × Option String :=
  if buf.length = 0 ∧ plen ≠ 0 then ([], buf, some errEOF)
  else (buf.take (min plen buf.length), buf.drop (min plen buf.length), none)

/-- `Read` (src/conn.go): serves from the leftover-plaintext buffer
`plain` when it is non-empty; otherwise consults `ReadFrame` (whose
result is the `frame` parameter), returns the error unchanged on
failure, and on success appends the plaintext to the buffer and serves
from it. -/
def connRead (plain : List Nat) (plen : Nat) (frame : Except String (List Nat)) :
    List Nat × List Nat × Option String :=
  if 0 < plain.length then bufferRead plain plen
  else
    match frame with
    | Except.error e => ([], plain, some e)
    | Except.ok msg => bufferRead (plain ++ msg) plen

/-- C8: with a non-empty leftover buffer, `Read` serves from it and its
result does not depend on `ReadFrame` at all; with an empty buffer it
appends the frame plaintext and serves from that; if `ReadFrame` fails,
`Read` returns zero bytes and the same error with the buffer unchanged. -/
theorem read_serves_leftover_first (plain : List Nat) (plen : Nat) :
    (∀ f1 f2 : Except String (List Nat), plain ≠ [] →
      connRead plain plen f1 = connRead plain plen f2 ∧
      connRead plain plen f1 = bufferRead plain plen) ∧
    (∀ msg : List Nat, plain = [] →
      connRead plain plen (Except.ok msg) = bufferRead msg plen) ∧
    (∀ e : String, plain = [] →
      connRead plain plen (Except.error e) = ([], plain, some e)) := by
  refine ⟨?_, ?_, ?_⟩
  · intro f1 f2 hne
    have hp : 0 < plain.length := List.length_pos.mpr hne
    constructor <;> simp [connRead, hp]
  · intro msg hp
    subst hp
    simp [connRead]
  · intro e hp
    subst hp
    simp [connRead]

theorem read_serves_leftover_witness :
    connRead [1, 2] 1 (Except.error ("boom")) = bufferRead [1, 2] 1 ∧
    connRead [] 2 (Except.ok [5, 6, 7]) = bufferRead [5, 6, 7] 2 ∧
    connRead [] 2 (Except.error ("boom")) = ([], [], some ("boom")) :=
  ⟨((read_serves_leftover_first [1, 2] 1).1 (Except.error ("boom"))
      (Except.ok []) (by decide)).2,
   (read_serves_leftover_first [] 2).2.1 [5, 6, 7] rfl,
   (read_serves_leftover_first [] 2).2.2 ("boom") rfl⟩

/-! ## Stream write (src/conn.go, Write) -/

/-- Events the `Write` loop can receive: an error from the error channel
or a consumed-byte count from the request's completion channel. -/
inductive WEvent where
  | errev (e : String)
  | cnt (m : Nat)
deriving Repr, DecidableEq

/-- `Write` (src/conn.go) sends exactly one `writeRequest` carrying all
of `b` on `outStream`; the splitting into at-most-`MaxContent` frames is
done by the Stream Batcher while draining the request, not by `Write`. -/
def writeEnqueues (b : List Nat) : List (List Nat) := [b]

/-- The receive loop of `Write` (src/conn.go): while fewer than `target`
bytes are reported consumed, receive the next event; an error event only
records the error (the loop does not return early), a count event adds
to `n`.  `none` models blocking forever on an exhausted event trace. -/
def writeLoop (target : Nat) : Nat → Option String → List WEvent → Option (Nat × Option String)
  | n, err, [] => if target ≤ n then some (n, err) else none
  | n, err, ev :: rest =>
    if target ≤ n then some (n, err)
    else
      match ev with
      | WEvent.errev e => writeLoop target n (some e) rest
      | WEvent.cnt m => writeLoop target (n + m) err rest

theorem writeLoop_counts (target : Nat) (ms : List Nat) :
    ∀ (acc : Nat) (err : Option String), acc + ms.sum = target →
      writeLoop target acc err (ms.map WEvent.cnt) = some (target, err) := by
  induction ms with
  | nil =>
    intro acc err h
    simp only [List.sum_nil, Nat.add_zero] at h
    subst h
    simp [writeLoop]
  | cons m ms ih =>
    intro acc err h
    simp only [List.map_cons]
    unfold writeLoop
    by_cases hle : target ≤ acc
    · have hacc : acc = target := by
        have : acc ≤ target := by simp only [List.sum_cons] at h; omega
        omega
      rw [if_pos hle, hacc]
    · rw [if_neg hle]
      exact ih (acc + m) err (by simp only [List.sum_cons] at h; omega)

/-- C7 counterexample: on input of `MaxContent + 1` zero bytes, `Write`
does not split into chunks of at most `MaxContent` bytes — the single
enqueued WriteRequest carries all `MaxContent + 1` bytes. -/
theorem write_chunking_claim_false :
    ¬ (∀ r ∈ writeEnqueues (List.replicate (MaxContent + 1) 0), r.length ≤ MaxContent) := by
  intro h
  have hr := h (List.replicate (MaxContent + 1) 0) (by simp [writeEnqueues])
  simp only [List.length_replicate] at hr
  omega

/-- C7 (amended): `Write(b)` enqueues exactly one WriteRequest carrying
all of `b` to the Batcher (the Batcher performs the at-most-`MaxContent`
chunking while draining it); the loop accumulates consumed-byte counts
from the completion channel and returns `n = len(b)` once all bytes are
reported consumed; an error event does not end the loop, it is only
recorded and returned after the byte count completes. -/
theorem write_single_request (b : List Nat) :
    writeEnqueues b = [b] ∧
    (∀ ms : List Nat, ms.sum = b.length →
      writeLoop b.length 0 none (ms.map WEvent.cnt) = some (b.length, none)) ∧
    (∀ (n : Nat) (e : String) (err : Option String) (rest : List WEvent), n < b.length →
      writeLoop b.length n err (WEvent.errev e :: rest) = writeLoop b.length n (some e) rest) := by
  refine ⟨rfl, ?_, ?_⟩
  · intro ms h
    exact writeLoop_counts b.length ms 0 none (by omega)
  · intro n e err rest h
    conv_lhs => rw [writeLoop]
    rw [if_neg (by omega)]

theorem write_single_request_witness :
    writeEnqueues [4, 5, 6] = [[4, 5, 6]] ∧
    writeLoop 3 0 none [WEvent.cnt 1, WEvent.cnt 2] = some (3, none) :=
  ⟨(write_single_request [4, 5, 6]).1,
   (write_single_request [4, 5, 6]).2.1 [1, 2] (by decide)⟩

/-! ## Stream Batcher (src/routines.go, streamWriter)

The loop runs single-threaded; channel nondeterminism (which select arm
fires, whether `len(c.outStream) > 0` makes the batching-window check
`continue`) is resolved by an explicit schedule.  One loop-top state:
`frame` is the accumulated plaintext `frame[:frameSize]`;
`sealedPending` stands for `encMsg != nil` — whenever `encMsg` is
non-nil in the source it equals `seal(frame[:frameSize])` (the copy step
resets `encMsg` to nil whenever it changes the frame, and a flush resets
the frame together with `encMsg`), so a boolean plus `frame` carries the
same information and a flush emits the current `frame`; `req` is the
remaining unsent bytes `req.msg` of the held WriteRequest. -/

structure BState where
  frame : List Nat
  sealedPending : Bool
  req : Option (List Nat)
deriving Repr, DecidableEq

/-- One scheduling directive: which channel operation the loop performs
at the top of the iteration (`accept` a WriteRequest from `outStream`,
or `flush` the pending sealed payload to `outBox`), and whether the
queue-length checks around the hold-time sleep cause the `continue`
that skips sealing (`cont`). -/
inductive BDir where
  | accept (msg : List Nat) (cont : Bool)
  | flush (cont : Bool)
deriving Repr, DecidableEq

/-- The `copy data into frame` step of `streamWriter`: if a request is
held and the frame has spare capacity, copy `n = min(spare, len(msg))`
bytes, report `n` on the completion channel (second component), drop the
copied bytes from the request (releasing it when fully consumed), and
invalidate any pending sealed payload. -/
def copyStep (t : BState) : BState × Option Nat :=
  match t.req with
  | none => (t, none)
  | some m =>
    if t.frame.length < MaxContent then
      (⟨t.frame ++ m.take (min (MaxContent - t.frame.length) m.length), false,
        if m.drop (min (MaxContent - t.frame.length) m.length) = [] then none
        else some (m.drop (min (MaxContent - t.frame.length) m.length))⟩,
       some (min (MaxContent - t.frame.length) m.length))
    else (t, none)

/-- Steps 3-4 of the loop body: when the frame still has spare capacity
and the schedule says more requests are queued (`cont`), the loop
`continue`s without sealing; otherwise, a non-empty frame with no sealed
payload pending is sealed. -/
def sealStep (cont : Bool) (t : BState) : BState :=
  if t.frame.length < MaxContent ∧ cont = true then t
  else if 0 < t.frame.length ∧ t.sealedPending = false then ⟨t.frame, true, t.req⟩
  else t

/-- Observable effects of one loop iteration. -/
structure IterOut where
  state : BState
  flushed : Option (List Nat)
  accepted : Option (List Nat)
  reported : Option Nat
  overwrote : Bool
deriving Repr, DecidableEq

/-- One iteration of the `streamWriter` loop from loop-top state `s`
under directive `d`.  `none` means the directive names a channel
operation the loop would not perform at `s`: a flush with nothing sealed
(the loop blocks receiving instead), or an accept while both a request
is held and a sealed payload is pending (the source flushes first,
blocking).  An accept via the plain blocking receive happens whenever no
sealed payload is pending, regardless of `req`; `overwrote` records such
a receive firing while a request is still held, which would discard the
held request's remaining bytes. -/
def flushIter (s : BState) (cont : Bool) : Option IterOut :=
  if s.sealedPending = true then
    some ⟨sealStep cont (copyStep ⟨[], false, s.req⟩).1, some s.frame, none,
      (copyStep ⟨[], false, s.req⟩).2, false⟩
  else none

def acceptIter (s : BState) (msg : List Nat) (cont : Bool) : Option IterOut :=
  if s.sealedPending = true ∧ s.req ≠ none then none
  else
    some ⟨sealStep cont (copyStep ⟨s.frame, s.sealedPending, some msg⟩).1, none, some msg,
      (copyStep ⟨s.frame, s.sealedPending, some msg⟩).2, decide (s.req ≠ none)⟩

def streamWriterIter (s : BState) (d : BDir) : Option IterOut :=
  match d with
  | BDir.flush cont => flushIter s cont
  | BDir.accept msg cont => acceptIter s msg cont

/-- Accumulated observations of a run; a disabled directive stops the
run (the remaining schedule is not performed). -/
structure RunOut where
  state : BState
  flushed : List (List Nat)
  accepted : List (List Nat)
  reports : List Nat
  overwrote : Bool
deriving Repr, DecidableEq

def streamWriterRun (s : BState) : List BDir → RunOut
  | [] => ⟨s, [], [], [], false⟩
  | d :: ds =>
    match streamWriterIter s d with
    | none => ⟨s, [], [], [], false⟩
    | some o =>
      ⟨(streamWriterRun o.state ds).state,
       o.flushed.toList ++ (streamWriterRun o.state ds).flushed,
       o.accepted.toList ++ (streamWriterRun o.state ds).accepted,
       o.reported.toList ++ (streamWriterRun o.state ds).reports,
       o.overwrote || (streamWriterRun o.state ds).overwrote⟩

/-- The bytes logically owned by the loop: accumulated frame plus the
rest of the held request. -/
def bytesOf (s : BState) : List Nat := s.frame ++ s.req.getD []

/-- Loop-top invariant: the frame never exceeds `MaxContent`, and
whenever no sealed payload is pending, no request is held. -/
def BInv (s : BState) : Prop :=
  s.frame.length ≤ MaxContent ∧ (s.sealedPending = false → s.req = none)

theorem maxContent_pos : 0 < MaxContent := by decide

theorem copyStep_none (fr : List Nat) (sp : Bool) :
    copyStep ⟨fr, sp, none⟩ = (⟨fr, sp, none⟩, none) := rfl

theorem copyStep_some (fr : List Nat) (sp : Bool) (m : List Nat) :
    copyStep ⟨fr, sp, some m⟩ =
      if fr.length < MaxContent then
        (⟨fr ++ m.take (min (MaxContent - fr.length) m.length), false,
          if m.drop (min (MaxContent - fr.length) m.length) = [] then none
          else some (m.drop (min (MaxContent - fr.length) m.length))⟩,
         some (min (MaxContent - fr.length) m.length))
      else (⟨fr, sp, some m⟩, none) := rfl

theorem copyStep_spec (t : BState) (hf : t.frame.length ≤ MaxContent) :
    (copyStep t).1.frame.length ≤ MaxContent ∧
    ((copyStep t).1.sealedPending = false →
      (copyStep t).1.req = none ∨ (copyStep t).1.frame.length = MaxContent) ∧
    bytesOf (copyStep t).1 = bytesOf t := by
  obtain ⟨fr, sp, rq⟩ := t
  dsimp only at hf
  cases rq with
  | none =>
    rw [copyStep_none]
    exact ⟨hf, fun _ => Or.inl rfl, rfl⟩
  | some m =>
    rw [copyStep_some]
    by_cases hlt : fr.length < MaxContent
    · rw [if_pos hlt]
      have h1 : min (MaxContent - fr.length) m.length ≤ MaxContent - fr.length :=
        Nat.min_le_left _ _
      have h2 : min (MaxContent - fr.length) m.length ≤ m.length :=
        Nat.min_le_right _ _
      refine ⟨?_, ?_, ?_⟩
      · dsimp only
        simp only [List.length_append, List.length_take]
        rw [Nat.min_eq_left h2]
        omega
      · intro _
        by_cases hd : m.drop (min (MaxContent - fr.length) m.length) = []
        · left
          dsimp only
          rw [if_pos hd]
        · right
          have hdn : min (MaxContent - fr.length) m.length < m.length := by
            rcases Nat.lt_or_ge (min (MaxContent - fr.length) m.length) m.length with h | h
            · exact h
            · exact absurd (List.drop_eq_nil_of_le h) hd
          have hmin : min (MaxContent - fr.length) m.length = MaxContent - fr.length := by
            rcases Nat.le_total (MaxContent - fr.length) m.length with hab | hba
            · exact Nat.min_eq_left hab
            · exact absurd (Nat.min_eq_right hba ▸ hdn) (lt_irrefl _)
          dsimp only
          simp only [List.length_append, List.length_take]
          rw [Nat.min_eq_left h2, hmin]
          omega
      · dsimp only [bytesOf]
        by_cases hd : m.drop (min (MaxContent - fr.length) m.length) = []
        · rw [if_pos hd]
          simp only [Option.getD_none, Option.getD_some, List.append_nil]
          conv_rhs => rw [← List.take_append_drop (min (MaxContent - fr.length) m.length) m,
            hd, List.append_nil]
        · rw [if_neg hd]
          simp only [Option.getD_some]
          rw [List.append_assoc, List.take_append_drop]
    · rw [if_neg hlt]
      refine ⟨hf, fun _ => Or.inr ?_, rfl⟩
      dsimp only
      omega

theorem sealStep_inv (cont : Bool) (t : BState)
    (hf : t.frame.length ≤ MaxContent)
    (hp : t.sealedPending = false → t.req = none ∨ t.frame.length = MaxContent) :
    BInv (sealStep cont t) := by
  have hpos := maxContent_pos
  unfold sealStep BInv
  split
  · next hc =>
    refine ⟨hf, fun hsp => ?_⟩
    rcases hp hsp with h | h
    · exact h
    · exact absurd hc.1 (by omega)
  · split
    · next hc2 =>
      exact ⟨hf, fun hsp => by simp at hsp⟩
    · next hc hc2 =>
      refine ⟨hf, fun hsp => ?_⟩
      rcases hp hsp with h | h
      · exact h
      · exfalso
        exact hc2 ⟨by omega, hsp⟩

theorem sealStep_bytes (cont : Bool) (t : BState) :
    bytesOf (sealStep cont t) = bytesOf t := by
  unfold sealStep
  split
  · rfl
  · split <;> rfl

theorem iter_preserves {s : BState} {d : BDir} {o : IterOut}
    (hs : BInv s) (h : streamWriterIter s d = some o) :
    BInv o.state ∧ o.overwrote = false ∧
    (∀ f ∈ o.flushed, f.length ≤ MaxContent) ∧
    (o.flushed.toList.flatten ++ bytesOf o.state
      = bytesOf s ++ o.accepted.toList.flatten) := by
  cases d with
  | flush cont =>
    have h2 : flushIter s cont = some o := h
    unfold flushIter at h2
    by_cases hp : s.sealedPending = true
    · rw [if_pos hp] at h2
      cases h2
      obtain ⟨hc1, hc2, hc3⟩ :=
        copyStep_spec ⟨[], false, s.req⟩ (by simp)
      refine ⟨sealStep_inv cont _ hc1 hc2, rfl, ?_, ?_⟩
      · intro f hf
        simp only [Option.mem_def, Option.some.injEq] at hf
        exact hf ▸ hs.1
      · dsimp only
        simp only [Option.toList_some, Option.toList_none, List.flatten_cons,
          List.flatten_nil, List.append_nil]
        rw [sealStep_bytes, hc3]
        simp [bytesOf]
    · rw [if_neg hp] at h2
      exact Option.noConfusion h2
  | accept msg cont =>
    have h2 : acceptIter s msg cont = some o := h
    unfold acceptIter at h2
    by_cases hen : s.sealedPending = true ∧ s.req ≠ none
    · rw [if_pos hen] at h2
      exact Option.noConfusion h2
    · rw [if_neg hen] at h2
      cases h2
      have hreq : s.req = none := by
        by_cases hsp : s.sealedPending = true
        · by_contra hc
          exact hen ⟨hsp, hc⟩
        · exact hs.2 (by simpa using hsp)
      obtain ⟨hc1, hc2, hc3⟩ :=
        copyStep_spec ⟨s.frame, s.sealedPending, some msg⟩ hs.1
      refine ⟨sealStep_inv cont _ hc1 hc2, ?_, ?_, ?_⟩
      · dsimp only
        simp [hreq]
      · intro f hf
        simp at hf
      · dsimp only
        simp only [Option.toList_some, Option.toList_none, List.flatten_cons,
          List.flatten_nil, List.append_nil, List.nil_append]
        rw [sealStep_bytes, hc3]
        simp [bytesOf, hreq]

theorem run_preserves (ds : List BDir) : ∀ s : BState, BInv s →
    (streamWriterRun s ds).overwrote = false ∧
    (∀ f ∈ (streamWriterRun s ds).flushed, f.length ≤ MaxContent) ∧
    ((streamWriterRun s ds).flushed.flatten ++ bytesOf (streamWriterRun s ds).state
      = bytesOf s ++ (streamWriterRun s ds).accepted.flatten) ∧
    BInv (streamWriterRun s ds).state := by
  induction ds with
  | nil =>
    intro s hs
    exact ⟨rfl, by simp [streamWriterRun], by simp [streamWriterRun], hs⟩
  | cons d ds ih =>
    intro s hs
    unfold streamWriterRun
    cases hit : streamWriterIter s d with
    | none =>
      refine ⟨rfl, ?_, ?_, hs⟩
      · intro f hf
        exact absurd hf (List.not_mem_nil f)
      · show ([] : List (List Nat)).flatten ++ bytesOf s
          = bytesOf s ++ ([] : List (List Nat)).flatten
        simp
    | some o =>
      obtain ⟨ho1, ho2, ho3, ho4⟩ := iter_preserves hs hit
      obtain ⟨ih1, ih2, ih3, ih4⟩ := ih o.state ho1
      dsimp only
      refine ⟨by simp [ho2, ih1], ?_, ?_, ih4⟩
      · intro f hf
        simp only [List.mem_append, Option.mem_toList] at hf
        rcases hf with hf | hf
        · exact ho3 f hf
        · exact ih2 f hf
      · simp only [List.flatten_append]
        rw [List.append_assoc, ih3, ← List.append_assoc, ho4, List.append_assoc]

/-- C2: in the Stream Batcher, at most one WriteRequest is held at a
time (the state holds one optional request), a receive never fires while
a held request still has bytes left (`overwrote = false`: each request
is drained to completion before the next is accepted), and under every
schedule the concatenation of the flushed frame plaintexts, followed by
the bytes still owned by the loop, equals the concatenation of the
accepted requests' bytes in arrival order — so two Write calls' bytes
are never interleaved in the outgoing stream and requests appear in the
order received. -/
theorem streamWriter_serializes_requests (ds : List BDir) :
    (streamWriterRun ⟨[], false, none⟩ ds).overwrote = false ∧
    ((streamWriterRun ⟨[], false, none⟩ ds).flushed.flatten
        ++ bytesOf (streamWriterRun ⟨[], false, none⟩ ds).state
      = (streamWriterRun ⟨[], false, none⟩ ds).accepted.flatten) := by
  obtain ⟨h1, _, h3, _⟩ :=
    run_preserves ds ⟨[], false, none⟩ ⟨by simp, fun _ => rfl⟩
  refine ⟨h1, ?_⟩
  rw [h3]
  simp [bytesOf]

/-- C10: every payload handed to the Frame Writer over the outbox
channel has length at most `MaxRawData = 65535`: the handshake payload
is exactly 32 bytes; a `WriteFrame` payload seals at most `MaxContent`
plaintext bytes; the Batcher only flushes frames of at most `MaxContent`
plaintext bytes; and sealing adds exactly nonce length plus AEAD
overhead.  Hence the 2-byte big-endian length prefix written by the
Frame Writer encodes the content length exactly (the `uint16`
conversion never truncates) and the peer's decoder recovers exactly the
payload. -/
theorem outbox_payload_fits_uint16 :
    (∀ key nonce b p : List Nat, nonce.length = NonceSize →
      writeFrame key nonce b = Except.ok p → p.length ≤ MaxRawData) ∧
    (∀ key nonce pt : List Nat, nonce.length = NonceSize → pt.length ≤ MaxContent →
      (sealData key nonce pt).length ≤ MaxRawData) ∧
    (∀ (ds : List BDir) (f : List Nat),
      f ∈ (streamWriterRun ⟨[], false, none⟩ ds).flushed → f.length ≤ MaxContent) ∧
    ((32 : Nat) ≤ MaxRawData) ∧
    (∀ msg : List Nat, msg.length ≤ MaxRawData →
      msg.length % 2 ^ 16 = msg.length ∧
      decodeFrames (encodeFrame msg) = ([msg], [])) := by
  have hmc : MaxContent = 65495 := by norm_num [MaxContent, MaxRawData, BoxOverhead, NonceSize]
  have hmr : MaxRawData = 65535 := by norm_num [MaxRawData]
  have h24 : NonceSize = 24 := rfl
  have h16 : BoxOverhead = 16 := rfl
  have hseal : ∀ key nonce pt : List Nat, nonce.length = NonceSize → pt.length ≤ MaxContent →
      (sealData key nonce pt).length ≤ MaxRawData := by
    intro key nonce pt hn hpt
    rw [seal_length, hn]
    omega
  refine ⟨?_, hseal, ?_, ?_, ?_⟩
  · intro key nonce b p hn hw
    unfold writeFrame at hw
    by_cases hb : b.length > MaxContent
    · rw [if_pos hb] at hw
      exact Except.noConfusion hw
    · rw [if_neg hb] at hw
      cases hw
      exact hseal key nonce b hn (by omega)
  · intro ds f hf
    exact (run_preserves ds ⟨[], false, none⟩ ⟨by simp, fun _ => rfl⟩).2.1 f hf
  · omega
  · intro msg hm
    exact ⟨Nat.mod_eq_of_lt (by omega), decode_encode msg hm⟩

theorem outbox_payload_witness :
    (sealData [] (List.replicate NonceSize 0) [1, 2]).length ≤ MaxRawData ∧
    decodeFrames (encodeFrame [9]) = ([[9]], []) :=
  ⟨outbox_payload_fits_uint16.2.1 [] (List.replicate NonceSize 0) [1, 2] (by simp) (by decide),
   (outbox_payload_fits_uint16.2.2.2.2 [9] (by decide)).2⟩
